import Mathlib

/-!
Verification development for the `ultrasequence` sequencer
(`src/ultrasequence/sequencer.py`).

Strings are modelled as `List Char`; Python integers as `Int`; Python
dictionaries as insertion-ordered association lists with unique keys;
raised exceptions as the `Except` monad.  All definitions are direct
transcriptions of the corresponding Python functions.
-/

namespace UltraSeq

/-! ### FRAMENUM_RE and `extract_frame`

The module-level pattern is `((.*)(\D))?(\d+)(.*)`, applied with
`re.match` (anchored at the start of the string) and greedy semantics:
the optional group `((.*)(\D))` is tried first with the longest possible
`(.*)`, i.e. the match puts the frame-digit group at the rightmost
position of the form "non-digit followed by digit"; if the optional
group cannot match at all, `(\d+)` must match at position 0.
-/

/-- `headDigit cs` is true when `cs` starts with a decimal digit. -/
def headDigit : List Char → Bool
| [] => false
| c :: _ => c.isDigit

/-- Greedy match of the optional regex group `((.*)(\D))`: the longest
prefix that ends with a non-digit and is immediately followed by a
digit.  Returns that prefix together with the rest of the string, or
`none` when no position of the form "non-digit then digit" exists. -/
def lastHeadSplit : List Char → Option (List Char × List Char)
| [] => none
| c :: rest =>
  match lastHeadSplit rest with
  | some (h, r) => some (c :: h, r)
  | none => if ¬ c.isDigit ∧ headDigit rest then some ([c], rest) else none

/-- `extract_frame` (sequencer.py lines 21-42): split a basename into
`(head, frame, tail)` using `FRAMENUM_RE`; when the regex does not
match (no digits in the name) return `(name, '', '')`; a `None` head
group is replaced by the empty string. -/
def extract_frame (name : List Char) : List Char × List Char × List Char :=
  match lastHeadSplit name with
  | some (h, r) =>
    let p := r.span Char.isDigit
    (h, p.1, p.2)
  | none =>
    let p := name.span Char.isDigit
    if p.1.isEmpty then (name, [], []) else ([], p.1, p.2)

/-- `split_extension` (lines 45-55): split off the part after the last
dot; a name without a dot has the empty extension. -/
def split_extension (filename : List Char) : List Char × List Char :=
  let parts := filename.splitOn '.'
  if parts.length < 2 then (filename, [])
  else (List.intercalate ['.'] parts.dropLast, parts.getLastD [])

/-! ### `frame_ranges_to_string` -/

/-- Last element of `x :: xs` (first argument is the accumulator). -/
def lastD (d : Int) : List Int → Int
| [] => d
| x :: xs => lastD x xs

/-- The loop of `frame_ranges_to_string` (lines 70-77) written as a
recursion: `a` is the last element of the run currently being built
(`ranges[range_i][-1]`); each next element `x` with `x - 1 == a` is
appended to the current run, any other `x` starts a new run. -/
def runsAux (a : Int) : List Int → List (List Int)
| [] => [[a]]
| x :: xs =>
  if x - 1 = a then
    match runsAux x xs with
    | r :: rs => (a :: r) :: rs
    | [] => [[a]]
  else [a] :: runsAux x xs

/-- The list `ranges` built by the loop (`ranges = [[frame_list.pop(0)]]`
followed by the `for` loop): a partition of the input into runs of
consecutive integers. -/
def runs : List Int → List (List Int)
| [] => []
| a :: xs => runsAux a xs

/-- Rendering of one run (lines 79-83): a single number, or
`first-last` when the run is longer. -/
def renderRun : List Int → List Char
| [] => []
| [x] => (toString x).data
| x :: y :: ys => (toString x).data ++ '-' :: (toString (lastD y ys)).data

/-- `frame_ranges_to_string` (lines 58-85), value semantics: `"[]"` on
the empty list, otherwise the runs rendered, joined by `", "` and
wrapped in square brackets. -/
def frame_ranges_to_string (frame_list : List Int) : List Char :=
  if frame_list.isEmpty then "[]".data
  else '[' :: List.intercalate ", ".data ((runs frame_list).map renderRun) ++ [']']

/-- `frame_ranges_to_string` with the caller's list made explicit: the
function receives the list object, executes `frame_list.pop(0)` (so the
caller's list loses its first element) and returns the rendered string
together with the final state of the argument list. -/
def frame_ranges_to_string_st (frame_list : List Int) : List Char × List Int :=
  match frame_list with
  | [] => ("[]".data, [])
  | x :: xs =>
    ('[' :: List.intercalate ", ".data ((runsAux x xs).map renderRun) ++ [']'], xs)

/-- `range(a, b + 1)` of Python: the integers from `a` to `b`
inclusive, empty when `b < a`. -/
def pyRange (a b : Int) : List Int :=
  if a ≤ b then (List.range ((b - a).toNat + 1)).map (fun i : Nat => a + (i : Int)) else []

/-- Expansion of one rendered token when the compressed string is
parsed back: a singleton run is read back as its literal number, a
longer run `first-last` expands to every integer from `first` to
`last`. -/
def expandRun : List Int → List Int
| [] => []
| [x] => [x]
| x :: y :: ys => pyRange x (lastD y ys)

/-! ### `os.path` helpers used by `File.__init__` -/

/-- Remove trailing `'/'` characters. -/
def rstripSlash (l : List Char) : List Char := (l.reverse.dropWhile (· = '/')).reverse

/-- `os.path.split`: split a path at the final `'/'`; the head keeps no
trailing separator unless it consists only of separators. -/
def splitPath (p : List Char) : List Char × List Char :=
  let q := p.reverse.span (· ≠ '/')
  let name := q.1.reverse
  let head0 := q.2.reverse
  (if head0.all (· = '/') then head0 else rstripSlash head0, name)

/-- `os.path.join` for the two-argument uses in the source: an
absolute second part wins; otherwise a `'/'` is inserted unless the
first part is empty or already ends with one. -/
def pathJoin (d n : List Char) : List Char :=
  match n with
  | '/' :: _ => n
  | _ => if d = [] ∨ d.getLast? = some '/' then d ++ n else d ++ '/' :: n

/-- `str.lower` applied characterwise. -/
def lowerStr (l : List Char) : List Char := l.map Char.toLower

/-- `int()` on a (non-empty, all-digit) string. -/
def digitsToInt (l : List Char) : Int :=
  l.foldl (fun n c => n * 10 + ((c.toNat : Int) - 48)) 0

/-- `str()` of a natural number. -/
def natChars (n : Nat) : List Char := (toString n).data

/-- `str()` of an integer. -/
def intChars (i : Int) : List Char := (toString i).data

/-! ### `File` (sequencer.py lines 123-372)

The `stats` machinery (`Stat`, the lazy stat accessors) touches the
filesystem and carries no claim; it is not modelled.  All name-derived
fields of `File.__init__` are. -/

structure File where
  abspath : List Char
  dir : List Char
  name : List Char
  _base : List Char
  ext : List Char
  namehead : List Char
  _framenum : List Char
  tail : List Char
  head : List Char
  padding : Nat
deriving DecidableEq

/-- `File.__init__` (lines 124-156), name-derived fields only. -/
def mkFile (filepath : List Char) : File :=
  let sp := splitPath filepath
  let se := split_extension sp.2
  let ef := extract_frame se.1
  { abspath := filepath
    dir := sp.1
    name := sp.2
    _base := se.1
    ext := se.2
    namehead := ef.1
    _framenum := ef.2.1
    tail := if se.2.isEmpty then [] else ef.2.2 ++ '.' :: se.2
    head := pathJoin sp.1 ef.1
    padding := ef.2.1.length }

/-- `File.frame` (lines 225-231): `int(self._framenum)`, `None` when
that raises `ValueError`. -/
def File.frame (f : File) : Option Int :=
  if f._framenum ≠ [] ∧ f._framenum.all Char.isDigit then some (digitsToInt f._framenum)
  else none

/-- `File.frame_as_str` (lines 233-236). -/
def File.frame_as_str (f : File) : List Char := f._framenum

/-- `File.get_seq_key` (lines 358-372). -/
def File.get_seq_key (f : File) (ignore_padding : Bool) : List Char :=
  let digits :=
    if f._framenum.isEmpty then []
    else if ignore_padding then ['#']
    else '%' :: '0' :: natChars f.padding ++ ['d']
  f.head ++ digits ++ f.tail

/-- Python's `<` on strings: lexicographic by character, a proper
prefix is smaller. -/
def pyStrLt : List Char → List Char → Bool
| _, [] => false
| [], _ :: _ => true
| a :: as, b :: bs => if a < b then true else if a = b then pyStrLt as bs else false

/-- Python's `<=` on strings. -/
def pyStrLe : List Char → List Char → Bool
| [], _ => true
| _ :: _, [] => false
| a :: as, b :: bs => if a < b then true else if a = b then pyStrLe as bs else false

/-- `File.__lt__` (lines 181-186): comparable only when the sequence
keys (with default `ignore_padding=True`) agree, else `TypeError`. -/
def File.lt (a b : File) : Except Unit Bool :=
  if a.get_seq_key true = b.get_seq_key true then .ok (pyStrLt a.frame_as_str b.frame_as_str)
  else .error ()

/-- `File.__gt__` (lines 188-193). -/
def File.gt (a b : File) : Except Unit Bool :=
  if a.get_seq_key true = b.get_seq_key true then .ok (pyStrLt b.frame_as_str a.frame_as_str)
  else .error ()

/-- `File.__le__` (lines 195-200). -/
def File.le (a b : File) : Except Unit Bool :=
  if a.get_seq_key true = b.get_seq_key true then .ok (pyStrLe a.frame_as_str b.frame_as_str)
  else .error ()

/-- `File.__ge__` (lines 202-207). -/
def File.ge (a b : File) : Except Unit Bool :=
  if a.get_seq_key true = b.get_seq_key true then .ok (pyStrLe b.frame_as_str a.frame_as_str)
  else .error ()

/-! ### `Sequence` (lines 375-639) -/

/-- The exceptions `Sequence.append` can raise: the two `ValueError`s
(lines 483, 486) and the `IndexError` for a duplicate frame (line 496). -/
inductive AppendErr
| notMember
| notSequenceable
| duplicate
deriving DecidableEq

/-- The argument of `Sequence.append`: a `File` object or a path string. -/
inductive FileArg
| fileObj (f : File)
| path (p : List Char)
deriving DecidableEq

structure Sequence where
  _frames : List (Int × File) := []
  seq_name : List Char := []
  dir : List Char := []
  namehead : List Char := []
  head : List Char := []
  tail : List Char := []
  ext : List Char := []
  padding : Nat := 0
  inconsistent_padding : Bool := false
  ignore_padding : Bool := true
deriving DecidableEq

/-- The keys of the `_frames` dictionary, in insertion order. -/
def Sequence.keys (s : Sequence) : List Int := s._frames.map Prod.fst

/-- The values of the `_frames` dictionary (`Sequence.__iter__`). -/
def Sequence.files (s : Sequence) : List File := s._frames.map Prod.snd

/-- `Sequence.frames` = `Sequence.__len__` = `len(self._frames)`. -/
def Sequence.frames (s : Sequence) : Nat := s._frames.length

/-- Dictionary lookup `self._frames[k]` (`Sequence.__getitem__`, int case). -/
def Sequence.lookup (s : Sequence) (k : Int) : Option File :=
  (s._frames.find? (fun kv => kv.1 == k)).map Prod.snd

/-- `min` over a Python iterable of ints: `ValueError` (here `none`) on
an empty collection. -/
def minList : List Int → Option Int
| [] => none
| x :: xs => some (xs.foldl min x)

/-- `max` over a Python iterable of ints. -/
def maxList : List Int → Option Int
| [] => none
| x :: xs => some (xs.foldl max x)

/-- `Sequence.start` (lines 425-428): `min(self._frames)`. -/
def Sequence.start (s : Sequence) : Option Int := minList s.keys

/-- `Sequence.end` (lines 430-433): `max(self._frames)`. -/
def Sequence.end_ (s : Sequence) : Option Int := maxList s.keys

/-- `Sequence.implied_frames` (lines 440-443): `self.end - self.start + 1`. -/
def Sequence.implied_frames (s : Sequence) : Option Int := do
  let e ← s.end_
  let a ← s.start
  pure (e - a + 1)

/-- `Sequence.missing_frames` (lines 445-448):
`self.end - (self.start - 1) - self.frames`. -/
def Sequence.missing_frames (s : Sequence) : Option Int := do
  let e ← s.end_
  let a ← s.start
  pure (e - (a - 1) - (s.frames : Int))

/-- `Sequence.is_missing_frames` (lines 450-453):
`self.frames != self.implied_frames`. -/
def Sequence.is_missing_frames (s : Sequence) : Option Bool := do
  let i ← s.implied_frames
  pure (decide ((s.frames : Int) ≠ i))

/-- Insertion step of `sorted`. -/
def insertSorted (x : Int) : List Int → List Int
| [] => [x]
| y :: ys => if x ≤ y then x :: y :: ys else y :: insertSorted x ys

/-- `sorted` on a list of ints. -/
def pySorted (l : List Int) : List Int := l.foldr insertSorted []

/-- `Sequence.get_frames` (lines 463-465): `sorted(list(self._frames))`. -/
def Sequence.get_frames (s : Sequence) : List Int := pySorted s.keys

/-- `Sequence.get_missing_frames` (lines 467-470):
`[frame for frame in range(self.start, self.end + 1) if frame not in self._frames]`. -/
def Sequence.get_missing_frames (s : Sequence) : Option (List Int) := do
  let a ← s.start
  let e ← s.end_
  pure ((pyRange a e).filter (fun k => !(decide (k ∈ s.keys))))

/-- The body of `Sequence.append` (lines 485-501) after the
string-argument handling: the checks and mutations performed on a
`File` value, in source order. -/
def Sequence.appendFile (s : Sequence) (f : File) : Except AppendErr Sequence :=
  match f.frame with
  | none => .error .notSequenceable
  | some n =>
    if s._frames.isEmpty then
      .ok { s with namehead := f.namehead, dir := f.dir, head := f.head,
                   tail := f.tail, ext := f.ext, padding := f.padding,
                   seq_name := f.get_seq_key s.ignore_padding,
                   _frames := s._frames ++ [(n, f)] }
    else if n ∈ s.keys then .error .duplicate
    else if s.padding < f.padding then
      .ok { s with inconsistent_padding := true, padding := f.padding,
                   _frames := s._frames ++ [(n, f)] }
    else .ok { s with _frames := s._frames ++ [(n, f)] }

/-- `Sequence.append` (lines 472-501).  Only a string argument is
converted through `File(...)` and key-checked against `seq_name`; a
`File` argument skips that check entirely. -/
def Sequence.append (s : Sequence) (file : FileArg) : Except AppendErr Sequence :=
  match file with
  | .path p =>
    let f := mkFile p
    if 0 < s._frames.length ∧ f.get_seq_key s.ignore_padding ≠ s.seq_name then
      .error .notMember
    else s.appendFile f
  | .fileObj f => s.appendFile f

/-- `Sequence.__init__` with a non-`None` `file` argument (lines
376-398): start from the empty state and `append` the argument. -/
def Sequence.fromFile (file : FileArg) (ignore_padding : Bool) : Except AppendErr Sequence :=
  Sequence.append { ignore_padding := ignore_padding } file

/-! ### The formatter (lines 503-639) -/

/-- Failures inside `Sequence.formatter`: an unrecognized directive
(`KeyError` in the mapper), `min`/`max` on an empty sequence
(`ValueError`), a failed frame lookup (`KeyError`). -/
inductive FmtErr
| badDirective (c : Char)
| emptySeq
| frameNotFound
deriving DecidableEq

/-- `Sequence.__implied_range` (lines 604-607):
`'[' + str(self[self.start].frame_as_str) + '-' + str(self[self.end].frame_as_str) + ']'`. -/
def Sequence.fmt_implied_range (s : Sequence) : Except FmtErr (List Char) :=
  match s.start with
  | none => .error .emptySeq
  | some a =>
    match s.end_ with
    | none => .error .emptySeq
    | some b =>
      match s.lookup a with
      | none => .error .frameNotFound
      | some fa =>
        match s.lookup b with
        | none => .error .frameNotFound
        | some fb => .ok ('[' :: fa.frame_as_str ++ '-' :: fb.frame_as_str ++ [']'])

/-- `Sequence.__tail_without_ext` (lines 629-631):
`'.'.join(self.tail.split('.')[:-1])`. -/
def Sequence.fmt_tail_without_ext (s : Sequence) : List Char :=
  List.intercalate ['.'] ((s.tail.splitOn '.').dropLast)

/-- The `directive_mapper` of `Sequence.formatter` (lines 552-567): the
string produced for the character following a `'%'`; an unknown
character is a `KeyError`. -/
def Sequence.directive (s : Sequence) (c : Char) : Except FmtErr (List Char) :=
  match c with
  | '%' => .ok ['%']
  | 'p' => .ok s.dir
  | 'h' => .ok s.namehead
  | 'H' => .ok s.head
  | 'f' => .ok (natChars s.frames)
  | 'r' => s.fmt_implied_range
  | 'R' => .ok (frame_ranges_to_string s.get_frames)
  | 'm' =>
    match s.missing_frames with
    | none => .error .emptySeq
    | some v => .ok (intChars v)
  | 'M' =>
    match s.get_missing_frames with
    | none => .error .emptySeq
    | some l => .ok (frame_ranges_to_string l)
  | 'd' => .ok (List.replicate s.padding '#')
  | 'D' => .ok ('%' :: '0' :: natChars s.padding ++ ['d'])
  | 't' => .ok s.fmt_tail_without_ext
  | 'T' => .ok s.tail
  | 'e' => .ok s.ext
  | c => .error (.badDirective c)

/-- The scanning loop of `Sequence.formatter` (lines 568-582); the
boolean is the `matched` flag. -/
def Sequence.runFmt (s : Sequence) : List Char → Bool → Except FmtErr (List Char)
| [], _ => .ok []
| c :: rest, true => do
  let d ← s.directive c
  let r ← s.runFmt rest false
  pure (d ++ r)
| c :: rest, false =>
  if c = '%' then s.runFmt rest true
  else do
    let r ← s.runFmt rest false
    pure (c :: r)

/-- `DEFAULT_FORMAT = '%H%r%T'` (line 18). -/
def DEFAULT_FORMAT : List Char := "%H%r%T".data

/-- `Sequence.formatter` (lines 503-582). -/
def Sequence.formatter (s : Sequence) (format : List Char) : Except FmtErr (List Char) :=
  s.runFmt format false

/-! ### `Parser` (lines 666-745) -/

structure Parser where
  include_exts : List (List Char) := []
  ignore_padding : Bool := true
  _sequences : List (List Char × Sequence) := []
  sequences : List Sequence := []
  single_frames : List Sequence := []
  non_sequences : List File := []
  excluded : List File := []
  collisions : List File := []
  parsed : Bool := false
deriving DecidableEq

/-- `Parser.__init__` + `Parser._reset` (lines 667-684): the extension
allow-list is lower-cased on the way in; all buckets start empty. -/
def initParser (include_exts : List (List Char)) (ignore_padding : Bool) : Parser :=
  { include_exts := include_exts.map lowerStr, ignore_padding := ignore_padding }

/-- Lookup in the `_sequences` dictionary. -/
def lookupAssoc (m : List (List Char × Sequence)) (k : List Char) : Option Sequence :=
  (m.find? (fun kv => kv.1 == k)).map Prod.snd

/-- Assignment `m[k] = v` on the `_sequences` dictionary: replace in
place when the key exists, append otherwise. -/
def updateAssoc (m : List (List Char × Sequence)) (k : List Char) (v : Sequence) :
    List (List Char × Sequence) :=
  match m with
  | [] => [(k, v)]
  | kv :: rest => if kv.1 = k then (k, v) :: rest else kv :: updateAssoc rest k v

/-- `Parser._sort_file` (lines 706-723).  A propagating exception from
`append` (never a caught `IndexError`) is the `.error` case. -/
def Parser._sort_file (P : Parser) (file_ : List Char) : Except AppendErr Parser :=
  let f := mkFile file_
  if P.include_exts ≠ [] ∧ lowerStr f.ext ∉ P.include_exts then
    .ok { P with excluded := P.excluded ++ [f] }
  else if f.frame = none then
    .ok { P with non_sequences := P.non_sequences ++ [f] }
  else
    let seq_name := f.get_seq_key P.ignore_padding
    match lookupAssoc P._sequences seq_name with
    | some s =>
      match s.append (.fileObj f) with
      | .ok s' => .ok { P with _sequences := updateAssoc P._sequences seq_name s' }
      | .error .duplicate => .ok { P with collisions := P.collisions ++ [f] }
      | .error e => .error e
    | none =>
      match Sequence.fromFile (.fileObj f) P.ignore_padding with
      | .ok s0 => .ok { P with _sequences := updateAssoc P._sequences seq_name s0 }
      | .error e => .error e

/-- The classification loop of `Parser.parse_directory` (lines
737-742) over an already-obtained file listing. -/
def Parser.sortFiles (P : Parser) (paths : List (List Char)) : Except AppendErr Parser :=
  paths.foldlM Parser._sort_file P

/-- The `while self._sequences: popitem()` loop of `Parser._cleanup`
(lines 697-704); `popitem` pops in LIFO order, so the argument is the
reversed dictionary. -/
def Parser.cleanupLoop : List (List Char × Sequence) → Parser → Parser
| [], P => { P with parsed := true }
| (_, s) :: rest, P =>
  if s.frames = 1 then Parser.cleanupLoop rest { P with single_frames := P.single_frames ++ [s] }
  else Parser.cleanupLoop rest { P with sequences := P.sequences ++ [s] }

/-- `Parser._cleanup` (lines 697-704). -/
def Parser._cleanup (P : Parser) : Parser :=
  Parser.cleanupLoop P._sequences.reverse { P with _sequences := [] }

/-- A full classification pass over a list of file paths: the loop of
`parse_directory` followed by `_cleanup`. -/
def Parser.parseList (P : Parser) (paths : List (List Char)) : Except AppendErr Parser := do
  let P' ← P.sortFiles paths
  pure P'._cleanup

/-- A `Sequence` built by seeding with one path string and appending
further path strings, as the spec's sequence-building interface allows. -/
def buildSeq (seed : List Char) (paths : List (List Char)) (ignore_padding : Bool) :
    Except AppendErr Sequence := do
  let s0 ← Sequence.fromFile (.path seed) ignore_padding
  paths.foldlM (fun s p => s.append (.path p)) s0

/-- Extract the sequence from a successful `Except` (used to name
concrete values in closed statements). -/
def seqOf : Except AppendErr Sequence → Sequence
| .ok s => s
| .error _ => {}

/-- Extract the parser from a successful `Except`. -/
def parserOf : Except AppendErr Parser → Parser
| .ok P => P
| .error _ => {}

/-- The multiset of member files of a list of in-progress sequences
(`_sequences` dictionary entries). -/
def seqsFiles (m : List (List Char × Sequence)) : Multiset File :=
  (m.map (fun kv => ((kv.2._frames.map Prod.snd : List File) : Multiset File))).sum

/-- The multiset of member files of a list of sequences. -/
def seqFilesL (ss : List Sequence) : Multiset File :=
  (ss.map (fun s => ((s._frames.map Prod.snd : List File) : Multiset File))).sum

/-- Mid-pass invariant of a classification run: the two final buckets
are still empty, each in-progress sequence is non-empty, each bucket's
files satisfy that bucket's entry condition, and the files built from
the processed paths are distributed over the buckets and the working
map with nothing lost or duplicated. -/
def MidInv (processed : List (List Char)) (P : Parser) : Prop :=
  P.sequences = [] ∧ P.single_frames = [] ∧
  (∀ kv ∈ P._sequences, kv.2._frames ≠ [] ∧ kv.2.seq_name = kv.1 ∧
    ∀ f ∈ kv.2.files,
      ((P.include_exts = [] ∨ lowerStr f.ext ∈ P.include_exts) ∧
        f.frame ≠ none ∧ f.get_seq_key P.ignore_padding = kv.1)) ∧
  (∀ f ∈ P.excluded, P.include_exts ≠ [] ∧ lowerStr f.ext ∉ P.include_exts) ∧
  (∀ f ∈ P.non_sequences,
    (P.include_exts = [] ∨ lowerStr f.ext ∈ P.include_exts) ∧ f.frame = none) ∧
  (∀ f ∈ P.collisions,
    (P.include_exts = [] ∨ lowerStr f.ext ∈ P.include_exts) ∧ f.frame ≠ none) ∧
  ((processed.map mkFile : Multiset File) =
    (P.excluded : Multiset File) + (P.non_sequences : Multiset File) +
    (P.collisions : Multiset File) + seqsFiles P._sequences)

/-! ## Lemmas about `extract_frame` -/

theorem runsAux_ne_nil : ∀ (xs : List Int) (a : Int), runsAux a xs ≠ [] := by
  intro xs
  induction xs with
  | nil => intro a; simp [runsAux]
  | cons x xs ih =>
    intro a
    simp only [runsAux]
    by_cases hx : x - 1 = a
    · rw [if_pos hx]
      cases hr : runsAux x xs with
      | nil => simp
      | cons r rs => simp
    · rw [if_neg hx]; simp

theorem runsAux_join : ∀ (xs : List Int) (a : Int), (runsAux a xs).flatten = a :: xs := by
  intro xs
  induction xs with
  | nil => intro a; simp [runsAux]
  | cons x xs ih =>
    intro a
    simp only [runsAux]
    by_cases hx : x - 1 = a
    · rw [if_pos hx]
      cases hr : runsAux x xs with
      | nil => exact absurd hr (runsAux_ne_nil xs x)
      | cons r rs =>
        have hthis := ih x
        rw [hr] at hthis
        simp only [List.flatten_cons] at hthis
        simp only [List.flatten_cons, List.cons_append, hthis]
    · rw [if_neg hx]
      simp [List.flatten_cons, ih x]

theorem runsAux_head : ∀ (xs : List Int) (a : Int) (r : List Int) (rs : List (List Int)),
    runsAux a xs = r :: rs → ∃ r', r = a :: r' := by
  intro xs
  induction xs with
  | nil =>
    intro a r rs h
    simp only [runsAux, List.cons.injEq] at h
    exact ⟨[], h.1.symm⟩
  | cons x xs ih =>
    intro a r rs h
    simp only [runsAux] at h
    by_cases hx : x - 1 = a
    · rw [if_pos hx] at h
      cases hr : runsAux x xs with
      | nil => exact absurd hr (runsAux_ne_nil xs x)
      | cons r0 rs0 =>
        rw [hr] at h
        simp only [List.cons.injEq] at h
        exact ⟨r0, h.1.symm⟩
    · rw [if_neg hx] at h
      simp only [List.cons.injEq] at h
      exact ⟨[], h.1.symm⟩

theorem pyRange_single (a : Int) : pyRange a a = [a] := by
  unfold pyRange
  rw [if_pos le_rfl, show (a - a).toNat + 1 = 1 by omega,
    show List.range 1 = [0] from rfl]
  simp

theorem pyRange_ne_nil {a b : Int} (h : pyRange a b ≠ []) : a ≤ b := by
  by_contra hab
  simp [pyRange, hab] at h

theorem pyRange_cons {a b : Int} (h : a ≤ b) : pyRange a b = a :: pyRange (a + 1) b := by
  by_cases h1 : a + 1 ≤ b
  · unfold pyRange
    rw [if_pos h, if_pos h1]
    have hk : (b - a).toNat = (b - (a + 1)).toNat + 1 := by omega
    rw [hk, List.range_succ_eq_map, List.map_cons, List.map_map]
    refine congrArg₂ _ (by simp) ?_
    apply List.map_congr_left
    intro i _
    simp only [Function.comp_apply, Nat.succ_eq_add_one]
    push_cast
    ring
  · have hb : b = a := by omega
    subst hb
    rw [pyRange_single]
    unfold pyRange
    rw [if_neg h1]

theorem runsAux_expand : ∀ (xs : List Int) (a : Int), ∀ r ∈ runsAux a xs, expandRun r = r := by
  intro xs
  induction xs with
  | nil =>
    intro a r hr
    simp only [runsAux, List.mem_singleton] at hr
    subst hr
    rfl
  | cons x xs ih =>
    intro a r hr
    simp only [runsAux] at hr
    by_cases hx : x - 1 = a
    · rw [if_pos hx] at hr
      cases hrr : runsAux x xs with
      | nil => exact absurd hrr (runsAux_ne_nil xs x)
      | cons r0 rs0 =>
        rw [hrr] at hr
        rcases List.mem_cons.mp hr with h1 | h1
        · subst h1
          obtain ⟨r0', hr0⟩ := runsAux_head xs x r0 rs0 hrr
          subst hr0
          have hx' : x = a + 1 := by omega
          have hIH := ih x (x :: r0') (by rw [hrr]; exact List.mem_cons_self _ _)
          cases r0' with
          | nil =>
            simp only [expandRun, lastD]
            rw [hx', pyRange_cons (by omega), pyRange_single]
          | cons y ys =>
            simp only [expandRun, lastD] at hIH ⊢
            have hne : pyRange x (lastD y ys) ≠ [] := by
              rw [hIH]; simp
            have hxle : x ≤ lastD y ys := pyRange_ne_nil hne
            rw [pyRange_cons (show a ≤ lastD y ys by omega), ← hx', hIH]
        · exact ih x r (by rw [hrr]; exact List.mem_cons_of_mem _ h1)
    · rw [if_neg hx] at hr
      rcases List.mem_cons.mp hr with h1 | h1
      · subst h1; rfl
      · exact ih x r h1

theorem runs_join (l : List Int) : (runs l).flatten = l := by
  cases l with
  | nil => rfl
  | cons a xs => exact runsAux_join xs a

theorem runs_expand (l : List Int) : ∀ r ∈ runs l, expandRun r = r := by
  cases l with
  | nil => intro r hr; simp [runs] at hr
  | cons a xs => exact runsAux_expand xs a

/-- C4: `frame_ranges_to_string` returns `"[]"` on the empty list;
otherwise it groups the input into maximal runs of consecutive
integers, rendered and joined; expanding each rendered run back
(singletons to themselves, `first-last` tokens to the full range)
reproduces exactly the input list; and on the concrete example it
yields `"[10-12, 14, 16-18]"`. -/
theorem C4_frame_ranges_round_trip (l : List Int) (_hl : l.Chain' (fun a b => a < b)) :
    frame_ranges_to_string ([] : List Int) = "[]".data ∧
    (runs l).flatten = l ∧
    (∀ r ∈ runs l, expandRun r = r) ∧
    ((runs l).map expandRun).flatten = l ∧
    frame_ranges_to_string [10, 11, 12, 14, 16, 17, 18] = "[10-12, 14, 16-18]".data := by
  refine ⟨rfl, runs_join l, runs_expand l, ?_, by decide⟩
  have hmap : (runs l).map expandRun = (runs l).map id :=
    List.map_congr_left (fun r hr => runs_expand l r hr)
  rw [hmap, List.map_id, runs_join]

/-- Witness for C4 at the example list of the specification. -/
theorem C4_frame_ranges_round_trip_witness :
    ((runs [10, 11, 12, 14, 16, 17, 18]).map expandRun).flatten = [10, 11, 12, 14, 16, 17, 18] ∧
    frame_ranges_to_string [10, 11, 12, 14, 16, 17, 18] = "[10-12, 14, 16-18]".data :=
  ⟨(C4_frame_ranges_round_trip [10, 11, 12, 14, 16, 17, 18]
      (by simp [List.chain'_cons])).2.2.2.1,
   (C4_frame_ranges_round_trip [10, 11, 12, 14, 16, 17, 18]
      (by simp [List.chain'_cons])).2.2.2.2⟩

/-- C10: called on a non-empty list, `frame_ranges_to_string` pops the
first element off the caller's list (`frame_list.pop(0)`), so the
argument ends up equal to its own tail, while the returned string is
still computed over the runs of the full original list. -/
theorem C10_pop_mutation (l : List Int) (h : l ≠ []) :
    (frame_ranges_to_string_st l).2 = l.tail ∧
    (frame_ranges_to_string_st l).1 = frame_ranges_to_string l ∧
    (runs l).flatten = l := by
  cases l with
  | nil => exact absurd rfl h
  | cons x xs =>
    refine ⟨rfl, ?_, runs_join (x :: xs)⟩
    simp only [frame_ranges_to_string_st, frame_ranges_to_string, runs, List.isEmpty_cons]
    rfl

/-- Witness for C10 at the list `[5, 6, 9]`. -/
theorem C10_pop_mutation_witness :
    (frame_ranges_to_string_st [5, 6, 9]).2 = [6, 9] ∧
    (frame_ranges_to_string_st [5, 6, 9]).1 = frame_ranges_to_string [5, 6, 9] :=
  ⟨(C10_pop_mutation [5, 6, 9] (by decide)).1, (C10_pop_mutation [5, 6, 9] (by decide)).2.1⟩

/-! ## Empty-sequence accessors -/

/-- C9: on a `Sequence` with no records, `start`, `end`,
`implied_frames`, `missing_frames` and `get_missing_frames` all fail
(`min`/`max` of an empty collection raises `ValueError`, modelled as
`none`), while `frames` / `len` and iteration stay well defined and
return `0` / the empty list. -/
theorem C9_empty_sequence (s : Sequence) (h : s._frames = []) :
    s.start = none ∧ s.end_ = none ∧ s.implied_frames = none ∧
    s.missing_frames = none ∧ s.get_missing_frames = none ∧
    s.frames = 0 ∧ s.files = [] := by
  have hk : s.keys = [] := by simp [Sequence.keys, h]
  refine ⟨?_, ?_, ?_, ?_, ?_, ?_, ?_⟩ <;>
    simp [Sequence.start, Sequence.end_, Sequence.implied_frames, Sequence.missing_frames,
      Sequence.get_missing_frames, Sequence.frames, Sequence.files, minList, maxList, hk, h]

/-- Witness for C9 on the freshly constructed empty sequence. -/
theorem C9_empty_sequence_witness :
    ({} : Sequence).start = none ∧ ({} : Sequence).frames = 0 :=
  ⟨(C9_empty_sequence {} rfl).1, (C9_empty_sequence {} rfl).2.2.2.2.2.1⟩

/-! ## FileRecord ordering -/

theorem pyStrLt_iff_lex : ∀ (x y : List Char), pyStrLt x y = true ↔ List.Lex (· < ·) x y := by
  intro x
  induction x with
  | nil =>
    intro y
    cases y with
    | nil =>
      exact ⟨fun h => absurd h (by simp [pyStrLt]),
             fun h => absurd h (List.Lex.not_nil_right _ _)⟩
    | cons b bs =>
      exact ⟨fun _ => List.Lex.nil, fun _ => rfl⟩
  | cons a as ih =>
    intro y
    cases y with
    | nil =>
      exact ⟨fun h => absurd h (by simp [pyStrLt]),
             fun h => absurd h (List.Lex.not_nil_right _ _)⟩
    | cons b bs =>
      simp only [pyStrLt]
      by_cases hab : a < b
      · rw [if_pos hab]
        exact ⟨fun _ => List.Lex.rel hab, fun _ => rfl⟩
      · rw [if_neg hab]
        by_cases heq : a = b
        · subst heq
          rw [if_pos rfl]
          constructor
          · intro h
            exact List.Lex.cons ((ih bs).mp h)
          · intro hlex
            cases hlex with
            | rel h' => exact absurd h' (lt_irrefl a)
            | cons h' => exact (ih bs).mpr h'
        · rw [if_neg heq]
          constructor
          · intro h; exact absurd h (by simp)
          · intro hlex
            cases hlex with
            | rel h' => exact absurd h' hab
            | cons h' => exact absurd rfl heq

/-- C7: two `FileRecord`s with equal sequence keys compare (`<`, `>`,
`<=`, `>=`) by their extracted frame-digit strings, lexicographically
as strings (the relation computed is exactly `List.Lex (· < ·)`), not
numerically — witnessed by `"9" < "10"` being false while `9 < 10`
holds; two records with different sequence keys raise `TypeError`
(modelled `.error`) for every one of the four comparisons. -/
theorem C7_file_ordering (a b : File) :
    (a.get_seq_key true = b.get_seq_key true →
      File.lt a b = .ok (pyStrLt a.frame_as_str b.frame_as_str) ∧
      File.gt a b = .ok (pyStrLt b.frame_as_str a.frame_as_str) ∧
      File.le a b = .ok (pyStrLe a.frame_as_str b.frame_as_str) ∧
      File.ge a b = .ok (pyStrLe b.frame_as_str a.frame_as_str)) ∧
    (a.get_seq_key true ≠ b.get_seq_key true →
      File.lt a b = .error () ∧ File.gt a b = .error () ∧
      File.le a b = .error () ∧ File.ge a b = .error ()) ∧
    (∀ x y : List Char, pyStrLt x y = true ↔ List.Lex (· < ·) x y) ∧
    (File.lt (mkFile "f.9.e".data) (mkFile "f.10.e".data) = .ok false ∧
      (mkFile "f.9.e".data).frame = some 9 ∧
      (mkFile "f.10.e".data).frame = some 10 ∧ (9 : Int) < 10) := by
  refine ⟨?_, ?_, pyStrLt_iff_lex, rfl, rfl, rfl, by decide⟩
  · intro h
    exact ⟨by simp [File.lt, h], by simp [File.gt, h], by simp [File.le, h],
           by simp [File.ge, h]⟩
  · intro h
    exact ⟨by simp [File.lt, h], by simp [File.gt, h], by simp [File.le, h],
           by simp [File.ge, h]⟩

/-- Witness for C7: different keys raise, and the concrete
lexicographic-not-numeric comparison. -/
theorem C7_file_ordering_witness :
    File.lt (mkFile "a.1.e".data) (mkFile "b.2.e".data) = .error () ∧
    File.lt (mkFile "f.9.e".data) (mkFile "f.10.e".data) = .ok false :=
  ⟨((C7_file_ordering (mkFile "a.1.e".data) (mkFile "b.2.e".data)).2.1 (by decide)).1,
   (C7_file_ordering (mkFile "f.9.e".data) (mkFile "f.10.e".data)).2.2.2.1⟩

/-! ## Min/max and counting lemmas for the `Sequence` accessors -/

theorem foldl_min_mem : ∀ (xs : List Int) (x : Int), xs.foldl min x ∈ x :: xs := by
  intro xs
  induction xs with
  | nil => intro x; simp
  | cons y ys ih =>
    intro x
    simp only [List.foldl_cons]
    rcases List.mem_cons.mp (ih (min x y)) with h | h
    · rcases min_choice x y with h1 | h1 <;> rw [h, h1]
      · exact List.mem_cons_self _ _
      · exact List.mem_cons_of_mem _ (List.mem_cons_self _ _)
    · exact List.mem_cons_of_mem _ (List.mem_cons_of_mem _ h)

theorem foldl_min_le : ∀ (xs : List Int) (x k : Int), k ∈ x :: xs → xs.foldl min x ≤ k := by
  intro xs
  induction xs with
  | nil =>
    intro x k hk
    simp only [List.mem_singleton] at hk
    subst hk
    simp
  | cons y ys ih =>
    intro x k hk
    simp only [List.foldl_cons]
    rcases List.mem_cons.mp hk with h | h
    · rw [h]
      exact le_trans (ih (min x y) _ (List.mem_cons_self _ _)) (min_le_left _ _)
    · rcases List.mem_cons.mp h with h2 | h2
      · rw [h2]
        exact le_trans (ih (min x y) _ (List.mem_cons_self _ _)) (min_le_right _ _)
      · exact ih (min x y) k (List.mem_cons_of_mem _ h2)

theorem foldl_max_mem : ∀ (xs : List Int) (x : Int), xs.foldl max x ∈ x :: xs := by
  intro xs
  induction xs with
  | nil => intro x; simp
  | cons y ys ih =>
    intro x
    simp only [List.foldl_cons]
    rcases List.mem_cons.mp (ih (max x y)) with h | h
    · rcases max_choice x y with h1 | h1 <;> rw [h, h1]
      · exact List.mem_cons_self _ _
      · exact List.mem_cons_of_mem _ (List.mem_cons_self _ _)
    · exact List.mem_cons_of_mem _ (List.mem_cons_of_mem _ h)

theorem foldl_max_ge : ∀ (xs : List Int) (x k : Int), k ∈ x :: xs → k ≤ xs.foldl max x := by
  intro xs
  induction xs with
  | nil =>
    intro x k hk
    simp only [List.mem_singleton] at hk
    subst hk
    simp
  | cons y ys ih =>
    intro x k hk
    simp only [List.foldl_cons]
    rcases List.mem_cons.mp hk with h | h
    · rw [h]
      exact le_trans (le_max_left _ _) (ih (max x y) _ (List.mem_cons_self _ _))
    · rcases List.mem_cons.mp h with h2 | h2
      · rw [h2]
        exact le_trans (le_max_right _ _) (ih (max x y) _ (List.mem_cons_self _ _))
      · exact ih (max x y) k (List.mem_cons_of_mem _ h2)

theorem minList_spec {l : List Int} (h : l ≠ []) :
    ∃ a, minList l = some a ∧ a ∈ l ∧ ∀ k ∈ l, a ≤ k := by
  cases l with
  | nil => exact absurd rfl h
  | cons x xs =>
    exact ⟨xs.foldl min x, rfl, foldl_min_mem xs x, fun k hk => foldl_min_le xs x k hk⟩

theorem maxList_spec {l : List Int} (h : l ≠ []) :
    ∃ b, maxList l = some b ∧ b ∈ l ∧ ∀ k ∈ l, k ≤ b := by
  cases l with
  | nil => exact absurd rfl h
  | cons x xs =>
    exact ⟨xs.foldl max x, rfl, foldl_max_mem xs x, fun k hk => foldl_max_ge xs x k hk⟩

theorem length_filter_add (p : Int → Bool) (l : List Int) :
    (l.filter p).length + (l.filter (fun x => !(p x))).length = l.length := by
  induction l with
  | nil => rfl
  | cons x xs ih =>
    by_cases h : p x
    · simp [List.filter_cons, h, ← ih]
      omega
    · have h' : p x = false := by simpa using h
      simp [List.filter_cons, h', ← ih]
      omega

theorem pyRange_mem {a b k : Int} : k ∈ pyRange a b ↔ a ≤ k ∧ k ≤ b := by
  unfold pyRange
  by_cases h : a ≤ b
  · rw [if_pos h]
    simp only [List.mem_map, List.mem_range]
    constructor
    · rintro ⟨i, hi, rfl⟩
      omega
    · intro hk
      exact ⟨(k - a).toNat, by omega, by omega⟩
  · rw [if_neg h]
    simp only [List.not_mem_nil, false_iff]
    omega

theorem pyRange_nodup (a b : Int) : (pyRange a b).Nodup := by
  unfold pyRange
  split
  · exact List.Nodup.map (fun i j hij => by omega) (List.nodup_range _)
  · exact List.nodup_nil

theorem pyRange_length {a b : Int} (h : a ≤ b) :
    (pyRange a b).length = (b - a).toNat + 1 := by
  simp [pyRange, h]

theorem pyRange_pairwise (a b : Int) : (pyRange a b).Pairwise (fun x y => x < y) := by
  unfold pyRange
  split
  · exact List.Pairwise.map _ (fun i j hij => by omega) (List.pairwise_lt_range _)
  · exact List.Pairwise.nil

theorem missing_count {a b : Int} {keys : List Int} (hnd : keys.Nodup)
    (hsub : ∀ k ∈ keys, k ∈ pyRange a b) (hab : a ≤ b) :
    keys.length ≤ (b - a).toNat + 1 ∧
    ((pyRange a b).filter (fun k => !(decide (k ∈ keys)))).length =
      ((b - a).toNat + 1) - keys.length := by
  have hperm : ((pyRange a b).filter (fun k => decide (k ∈ keys))).Perm keys := by
    rw [List.perm_ext_iff_of_nodup (List.Nodup.filter _ (pyRange_nodup a b)) hnd]
    intro k
    simp only [List.mem_filter, decide_eq_true_eq]
    exact ⟨fun hk => hk.2, fun hk => ⟨hsub k hk, hk⟩⟩
  have hlen : ((pyRange a b).filter (fun k => decide (k ∈ keys))).length = keys.length :=
    hperm.length_eq
  have hadd := length_filter_add (fun k => decide (k ∈ keys)) (pyRange a b)
  rw [hlen, pyRange_length hab] at hadd
  constructor
  · omega
  · omega

/-- C5: on a non-empty sequence (with the dictionary invariant that
frame numbers are unique), `start` is the minimum frame number present
and `end` the maximum; `implied_frames = end - start + 1`;
`missing_frames = implied_frames - frames`; `is_missing_frames` holds
iff `frames ≠ implied_frames`; and `missing_frames` equals the length
of `get_missing_frames()`, the ascending list of integers in
`[start, end]` absent from the frame map. -/
theorem C5_sequence_accessors (s : Sequence) (hne : s._frames ≠ []) (hnd : s.keys.Nodup) :
    ∃ a b m, s.start = some a ∧ s.end_ = some b ∧
      a ∈ s.keys ∧ (∀ k ∈ s.keys, a ≤ k) ∧
      b ∈ s.keys ∧ (∀ k ∈ s.keys, k ≤ b) ∧
      s.implied_frames = some (b - a + 1) ∧
      s.missing_frames = some ((b - a + 1) - (s.frames : Int)) ∧
      (s.is_missing_frames = some true ↔ (s.frames : Int) ≠ b - a + 1) ∧
      s.get_missing_frames = some m ∧
      (m.length : Int) = (b - a + 1) - (s.frames : Int) ∧
      m.Chain' (fun x y => x < y) ∧
      (∀ k, k ∈ m ↔ a ≤ k ∧ k ≤ b ∧ k ∉ s.keys) := by
  have hkeys : s.keys ≠ [] := by
    intro hk
    exact hne (by simpa [Sequence.keys] using hk)
  obtain ⟨a, ha, hamem, hale⟩ := minList_spec hkeys
  obtain ⟨b, hb, hbmem, hble⟩ := maxList_spec hkeys
  have hab : a ≤ b := hale b hbmem
  have hframes : s.frames = s.keys.length := by
    simp [Sequence.frames, Sequence.keys]
  have hsub : ∀ k ∈ s.keys, k ∈ pyRange a b := fun k hk =>
    pyRange_mem.mpr ⟨hale k hk, hble k hk⟩
  obtain ⟨hcard, hcount⟩ := missing_count hnd hsub hab
  refine ⟨a, b, (pyRange a b).filter (fun k => !(decide (k ∈ s.keys))), ?_, ?_, hamem, hale,
    hbmem, hble, ?_, ?_, ?_, ?_, ?_, ?_, ?_⟩
  · exact ha
  · exact hb
  · simp [Sequence.implied_frames, Sequence.start, Sequence.end_, ha, hb]
  · have : b - (a - 1) - (s.frames : Int) = (b - a + 1) - (s.frames : Int) := by ring
    simp [Sequence.missing_frames, Sequence.start, Sequence.end_, ha, hb, this]
  · simp [Sequence.is_missing_frames, Sequence.implied_frames, Sequence.start,
      Sequence.end_, ha, hb]
  · simp [Sequence.get_missing_frames, Sequence.start, Sequence.end_, ha, hb]
  · rw [hcount, hframes]
    omega
  · exact List.chain'_iff_pairwise.mpr (List.Pairwise.filter _ (pyRange_pairwise a b))
  · intro k
    simp only [List.mem_filter, Bool.not_eq_true', decide_eq_false_iff_not]
    constructor
    · rintro ⟨hkr, hknot⟩
      obtain ⟨h1, h2⟩ := pyRange_mem.mp hkr
      exact ⟨h1, h2, hknot⟩
    · rintro ⟨h1, h2, h3⟩
      exact ⟨pyRange_mem.mpr ⟨h1, h2⟩, h3⟩

/-- Witness for C5 on the two-frame sequence built from `a.001.e` and
`a.005.e`. -/
theorem C5_sequence_accessors_witness :
    ∃ a b m, (seqOf (buildSeq "a.001.e".data ["a.005.e".data] true)).start = some a ∧
      (seqOf (buildSeq "a.001.e".data ["a.005.e".data] true)).end_ = some b ∧
      a ∈ (seqOf (buildSeq "a.001.e".data ["a.005.e".data] true)).keys ∧
      (∀ k ∈ (seqOf (buildSeq "a.001.e".data ["a.005.e".data] true)).keys, a ≤ k) ∧
      b ∈ (seqOf (buildSeq "a.001.e".data ["a.005.e".data] true)).keys ∧
      (∀ k ∈ (seqOf (buildSeq "a.001.e".data ["a.005.e".data] true)).keys, k ≤ b) ∧
      (seqOf (buildSeq "a.001.e".data ["a.005.e".data] true)).implied_frames =
        some (b - a + 1) ∧
      (seqOf (buildSeq "a.001.e".data ["a.005.e".data] true)).missing_frames =
        some ((b - a + 1) -
          ((seqOf (buildSeq "a.001.e".data ["a.005.e".data] true)).frames : Int)) ∧
      ((seqOf (buildSeq "a.001.e".data ["a.005.e".data] true)).is_missing_frames =
          some true ↔
        ((seqOf (buildSeq "a.001.e".data ["a.005.e".data] true)).frames : Int) ≠
          b - a + 1) ∧
      (seqOf (buildSeq "a.001.e".data ["a.005.e".data] true)).get_missing_frames = some m ∧
      (m.length : Int) = (b - a + 1) -
        ((seqOf (buildSeq "a.001.e".data ["a.005.e".data] true)).frames : Int) ∧
      m.Chain' (fun x y => x < y) ∧
      (∀ k, k ∈ m ↔ a ≤ k ∧ k ≤ b ∧
        k ∉ (seqOf (buildSeq "a.001.e".data ["a.005.e".data] true)).keys) :=
  C5_sequence_accessors (seqOf (buildSeq "a.001.e".data ["a.005.e".data] true))
    (by decide) (by decide)

/-! ## Duplicate frames -/

/-- C3: appending a record whose frame number is already a key of a
non-empty sequence's frame map fails with the duplicate error
(`IndexError`), which is a different error kind from the two
`ValueError`s, and produces no new sequence state; the classifier
catches exactly this error kind and appends the offending file to the
`collisions` bucket, leaving everything else — in particular the
`_sequences` map and hence the frame map — unchanged. -/
theorem C3_duplicate_collision (s : Sequence) (f : File) (n : Int)
    (hf : f.frame = some n) (hdup : n ∈ s.keys) :
    s.append (.fileObj f) = .error .duplicate ∧
    (AppendErr.duplicate ≠ .notMember ∧ AppendErr.duplicate ≠ .notSequenceable) ∧
    (∀ s', s.append (.fileObj f) ≠ .ok s') ∧
    (∀ (P : Parser) (p : List Char),
      mkFile p = f →
      ¬(P.include_exts ≠ [] ∧ lowerStr f.ext ∉ P.include_exts) →
      lookupAssoc P._sequences (f.get_seq_key P.ignore_padding) = some s →
      P._sort_file p = .ok { P with collisions := P.collisions ++ [f] }) := by
  have hfne : s._frames ≠ [] := by
    intro h0
    rw [show s.keys = [] from by simp [Sequence.keys, h0]] at hdup
    exact absurd hdup (List.not_mem_nil n)
  have hemp : ¬ (s._frames.isEmpty = true) := by
    simpa [List.isEmpty_iff] using hfne
  have happ : s.append (.fileObj f) = .error .duplicate := by
    simp only [Sequence.append, Sequence.appendFile, hf]
    rw [if_neg hemp, if_pos hdup]
  refine ⟨happ, ⟨by simp, by simp⟩, ?_, ?_⟩
  · intro s' hs'
    rw [happ] at hs'
    exact absurd hs' (by simp)
  · intro P p hpf hext hlk
    simp only [Parser._sort_file]
    rw [hpf, if_neg hext, if_neg (by simp [hf]), hlk]
    simp only [happ]

/-- Witness for C3: classifying `dup.07.exr` twice. -/
theorem C3_duplicate_collision_witness :
    (seqOf (Sequence.fromFile (.fileObj (mkFile "dup.07.exr".data)) true)).append
        (.fileObj (mkFile "dup.07.exr".data)) = .error .duplicate ∧
    (parserOf ((initParser [] true)._sort_file "dup.07.exr".data))._sort_file
        "dup.07.exr".data =
      .ok { parserOf ((initParser [] true)._sort_file "dup.07.exr".data) with
            collisions := (parserOf ((initParser [] true)._sort_file
              "dup.07.exr".data)).collisions ++ [mkFile "dup.07.exr".data] } := by
  have h := C3_duplicate_collision
    (seqOf (Sequence.fromFile (.fileObj (mkFile "dup.07.exr".data)) true))
    (mkFile "dup.07.exr".data) 7 (by decide) (by decide)
  exact ⟨h.1, h.2.2.2 _ _ rfl (by decide) (by decide)⟩

/-! ## Sequence-key membership under `append` -/

theorem fromFile_path_spec {p : List Char} {ig : Bool} {s0 : Sequence}
    (h : Sequence.fromFile (.path p) ig = .ok s0) :
    s0.seq_name = (mkFile p).get_seq_key ig ∧ s0.ignore_padding = ig ∧
    s0._frames ≠ [] ∧ ∀ kv ∈ s0._frames, kv.2 = mkFile p := by
  simp only [Sequence.fromFile, Sequence.append] at h
  rw [if_neg (by simp)] at h
  simp only [Sequence.appendFile] at h
  cases hfr : (mkFile p).frame with
  | none => rw [hfr] at h; exact absurd h (by simp)
  | some n =>
    simp only [hfr] at h
    rw [if_pos (show ([] : List (Int × File)).isEmpty = true from rfl)] at h
    simp only [Except.ok.injEq] at h
    subst h
    refine ⟨rfl, rfl, by simp, ?_⟩
    intro kv hkv
    simp only [List.nil_append, List.mem_singleton] at hkv
    rw [hkv]

theorem append_path_step {s s' : Sequence} {p : List Char}
    (hne : s._frames ≠ []) (h : s.append (.path p) = .ok s') :
    s'.seq_name = s.seq_name ∧ s'.ignore_padding = s.ignore_padding ∧ s'._frames ≠ [] ∧
    (mkFile p).get_seq_key s.ignore_padding = s.seq_name ∧
    (∀ kv ∈ s'._frames, kv ∈ s._frames ∨ kv.2 = mkFile p) := by
  simp only [Sequence.append] at h
  by_cases hcond : (0 < s._frames.length ∧ (mkFile p).get_seq_key s.ignore_padding ≠ s.seq_name)
  · rw [if_pos hcond] at h
    exact absurd h (by simp)
  · rw [if_neg hcond] at h
    have hkey : (mkFile p).get_seq_key s.ignore_padding = s.seq_name := by
      by_contra hk
      exact hcond ⟨List.length_pos.mpr hne, hk⟩
    simp only [Sequence.appendFile] at h
    cases hfr : (mkFile p).frame with
    | none => rw [hfr] at h; exact absurd h (by simp)
    | some n =>
      simp only [hfr] at h
      rw [if_neg (by simpa [List.isEmpty_iff] using hne)] at h
      by_cases hdup : n ∈ s.keys
      · rw [if_pos hdup] at h
        exact absurd h (by simp)
      · rw [if_neg hdup] at h
        by_cases hpad : s.padding < (mkFile p).padding
        · rw [if_pos hpad] at h
          simp only [Except.ok.injEq] at h
          subst h
          refine ⟨rfl, rfl, by simp [hne], hkey, ?_⟩
          intro kv hkv
          rcases List.mem_append.mp hkv with h1 | h1
          · exact Or.inl h1
          · simp only [List.mem_singleton] at h1
            rw [h1]
            exact Or.inr rfl
        · rw [if_neg hpad] at h
          simp only [Except.ok.injEq] at h
          subst h
          refine ⟨rfl, rfl, by simp [hne], hkey, ?_⟩
          intro kv hkv
          rcases List.mem_append.mp hkv with h1 | h1
          · exact Or.inl h1
          · simp only [List.mem_singleton] at h1
            rw [h1]
            exact Or.inr rfl

theorem buildSeq_fold_inv :
    ∀ (paths : List (List Char)) (s : Sequence),
      s.ignore_padding = true → s._frames ≠ [] →
      (∀ kv ∈ s._frames, kv.2.get_seq_key true = s.seq_name) →
      ∀ {s' : Sequence},
        paths.foldlM (fun s p => s.append (.path p)) s = .ok s' →
        ∀ kv ∈ s'._frames, kv.2.get_seq_key true = s'.seq_name := by
  intro paths
  induction paths with
  | nil =>
    intro s _ _ hall s' h
    simp only [List.foldlM_nil] at h
    have : s = s' := by simpa [pure, Except.pure] using h
    rw [← this]
    exact hall
  | cons p ps ih =>
    intro s hig hne hall s' h
    simp only [List.foldlM_cons] at h
    cases happ : s.append (.path p) with
    | error e => rw [happ] at h; exact absurd h (by simp [Bind.bind, Except.bind])
    | ok s1 =>
      rw [happ] at h
      obtain ⟨hname, hig1, hne1, hkey, hmem⟩ := append_path_step hne happ
      have hall1 : ∀ kv ∈ s1._frames, kv.2.get_seq_key true = s1.seq_name := by
        intro kv hkv
        rcases hmem kv hkv with h1 | h1
        · rw [hname]; exact hall kv h1
        · rw [h1, hname, ← hig]; exact hkey
      exact ih s1 (hig1.trans hig) hne1 hall1 (by simpa [Bind.bind, Except.bind] using h)

/-- C6 counterexample: a `Sequence` seeded from `a.001.ext` accepts a
`File`-object append of `b.002.ext` even though its sequence key
differs from the stored key (the key check only runs for string
arguments), so the claimed invariant and the claimed failure are both
refuted for `File`-object appends. -/
theorem C6_seq_key_counterexample :
    Sequence.fromFile (.fileObj (mkFile "a.001.ext".data)) true =
      .ok (seqOf (Sequence.fromFile (.fileObj (mkFile "a.001.ext".data)) true)) ∧
    (seqOf (Sequence.fromFile (.fileObj (mkFile "a.001.ext".data)) true)).append
        (.fileObj (mkFile "b.002.ext".data)) =
      .ok (seqOf ((seqOf (Sequence.fromFile (.fileObj (mkFile "a.001.ext".data))
        true)).append (.fileObj (mkFile "b.002.ext".data)))) ∧
    ((2 : Int), mkFile "b.002.ext".data) ∈
      (seqOf ((seqOf (Sequence.fromFile (.fileObj (mkFile "a.001.ext".data))
        true)).append (.fileObj (mkFile "b.002.ext".data))))._frames ∧
    (mkFile "b.002.ext".data).get_seq_key true ≠
      (seqOf ((seqOf (Sequence.fromFile (.fileObj (mkFile "a.001.ext".data))
        true)).append (.fileObj (mkFile "b.002.ext".data)))).seq_name :=
  ⟨rfl, rfl, by decide, by decide⟩

/-- C6 (amended): only string-path appends are key-checked, so the
membership invariant holds for sequences built from a seed path and
successful string-path appends (padding ignored): every member's
sequence key equals the stored key; and appending a path string whose
computed key differs from the stored key fails with the
`not a member` error and adds nothing.  `File`-object appends are not
key-checked (see the counterexample). -/
theorem C6_seq_key_amended :
    (∀ (seed : List Char) (paths : List (List Char)) (s : Sequence),
      buildSeq seed paths true = .ok s →
      ∀ kv ∈ s._frames, kv.2.get_seq_key true = s.seq_name) ∧
    (∀ (s : Sequence) (p : List Char), s._frames ≠ [] →
      (mkFile p).get_seq_key s.ignore_padding ≠ s.seq_name →
      s.append (.path p) = .error .notMember) := by
  constructor
  · intro seed paths s h
    simp only [buildSeq] at h
    cases h0 : Sequence.fromFile (.path seed) true with
    | error e => rw [h0] at h; exact absurd h (by simp [Bind.bind, Except.bind])
    | ok s0 =>
      rw [h0] at h
      obtain ⟨hname0, hig0, hne0, hmem0⟩ := fromFile_path_spec h0
      have hall0 : ∀ kv ∈ s0._frames, kv.2.get_seq_key true = s0.seq_name := by
        intro kv hkv
        rw [hmem0 kv hkv, hname0]
      exact buildSeq_fold_inv paths s0 hig0 hne0 hall0
        (by simpa [Bind.bind, Except.bind] using h)
  · intro s p hne hkey
    simp only [Sequence.append]
    rw [if_pos ⟨List.length_pos.mpr hne, hkey⟩]

/-- Witness for the amended C6 on a concretely built sequence. -/
theorem C6_seq_key_amended_witness :
    (∀ kv ∈ (seqOf (buildSeq "sh.0101.dpx".data ["sh.0102.dpx".data] true))._frames,
      kv.2.get_seq_key true =
        (seqOf (buildSeq "sh.0101.dpx".data ["sh.0102.dpx".data] true)).seq_name) ∧
    (seqOf (Sequence.fromFile (.fileObj (mkFile "sh.0101.dpx".data)) true)).append
        (.path "other.0102.dpx".data) = .error .notMember :=
  ⟨C6_seq_key_amended.1 "sh.0101.dpx".data ["sh.0102.dpx".data] _ rfl,
   C6_seq_key_amended.2 _ "other.0102.dpx".data (by decide) (by decide)⟩

/-! ## The formatter -/

theorem lookup_of_mem {s : Sequence} {k : Int} (h : k ∈ s.keys) :
    ∃ f, s.lookup k = some f := by
  simp only [Sequence.keys, List.mem_map] at h
  obtain ⟨kv, hkv, hk⟩ := h
  have hsome : (s._frames.find? (fun kv => kv.1 == k)).isSome := by
    rw [List.find?_isSome]
    exact ⟨kv, hkv, by simp [hk]⟩
  obtain ⟨kv', hkv'⟩ := Option.isSome_iff_exists.mp hsome
  exact ⟨kv'.2, by simp [Sequence.lookup, hkv']⟩

/-- C8: for a non-empty sequence, the formatter renders `%%` as a
literal `%`; renders `%r` as `'['`, the original digit string of the
start-frame member, `'-'`, the original digit string of the end-frame
member, `']'` (the stored digit strings keep their leading zeros — no
integers are re-padded); the default template is `%H%r%T`; and
formatting with the default template yields full head, implied range,
full tail concatenated. -/
theorem C8_formatter_directives (s : Sequence) (hne : s._frames ≠ []) :
    ∃ a b fa fb, s.start = some a ∧ s.end_ = some b ∧
      s.lookup a = some fa ∧ s.lookup b = some fb ∧
      s.formatter "%%".data = .ok "%".data ∧
      s.formatter "%r".data =
        .ok ('[' :: fa.frame_as_str ++ '-' :: fb.frame_as_str ++ [']']) ∧
      DEFAULT_FORMAT = "%H%r%T".data ∧
      s.formatter DEFAULT_FORMAT =
        .ok (s.head ++ ('[' :: fa.frame_as_str ++ '-' :: fb.frame_as_str ++ [']']) ++
          s.tail) := by
  have hkeys : s.keys ≠ [] := by
    intro hk
    exact hne (by simpa [Sequence.keys] using hk)
  obtain ⟨a, ha, hamem, _⟩ := minList_spec hkeys
  obtain ⟨b, hb, hbmem, _⟩ := maxList_spec hkeys
  obtain ⟨fa, hfa⟩ := lookup_of_mem hamem
  obtain ⟨fb, hfb⟩ := lookup_of_mem hbmem
  have e1 : ("%%".data : List Char) = ['%', '%'] := rfl
  have e2 : ("%r".data : List Char) = ['%', 'r'] := rfl
  have e3 : DEFAULT_FORMAT = ['%', 'H', '%', 'r', '%', 'T'] := rfl
  have e4 : ("%".data : List Char) = ['%'] := rfl
  have hrange : s.fmt_implied_range =
      .ok ('[' :: fa.frame_as_str ++ '-' :: fb.frame_as_str ++ [']']) := by
    simp only [Sequence.fmt_implied_range, Sequence.start, Sequence.end_, ha, hb, hfa, hfb]
  refine ⟨a, b, fa, fb, ha, hb, hfa, hfb, ?_, ?_, rfl, ?_⟩
  · rw [e1, e4]
    simp [Sequence.formatter, Sequence.runFmt, Sequence.directive, Bind.bind, Except.bind,
      Pure.pure, Except.pure]
  · rw [e2]
    simp [Sequence.formatter, Sequence.runFmt, Sequence.directive, hrange,
      Bind.bind, Except.bind, Pure.pure, Except.pure]
  · rw [e3]
    simp [Sequence.formatter, Sequence.runFmt, Sequence.directive, hrange,
      Bind.bind, Except.bind, Pure.pure, Except.pure]

/-- Witness for C8 on a concretely built two-frame sequence. -/
theorem C8_formatter_directives_witness :
    (seqOf (buildSeq "file.0101.final.ext".data ["file.0150.final.ext".data]
      true)).formatter "%%".data = .ok "%".data := by
  obtain ⟨a, b, fa, fb, _, _, _, _, h5, _⟩ :=
    C8_formatter_directives
      (seqOf (buildSeq "file.0101.final.ext".data ["file.0150.final.ext".data] true))
      (by decide)
  exact h5

/-! ## The classification pass -/

theorem seqsFiles_nil : seqsFiles [] = 0 := rfl

theorem seqsFiles_cons (kv : List Char × Sequence) (m : List (List Char × Sequence)) :
    seqsFiles (kv :: m) =
      ((kv.2._frames.map Prod.snd : List File) : Multiset File) + seqsFiles m := by
  simp [seqsFiles]

theorem seqFilesL_nil : seqFilesL [] = 0 := rfl

theorem seqFilesL_cons (s : Sequence) (l : List Sequence) :
    seqFilesL (s :: l) =
      ((s._frames.map Prod.snd : List File) : Multiset File) + seqFilesL l := by
  simp [seqFilesL]

theorem seqFilesL_append (l1 l2 : List Sequence) :
    seqFilesL (l1 ++ l2) = seqFilesL l1 + seqFilesL l2 := by
  simp [seqFilesL]

theorem seqsFiles_reverse (m : List (List Char × Sequence)) :
    seqsFiles m.reverse = seqsFiles m := by
  simp only [seqsFiles, List.map_reverse]
  exact List.sum_reverse _

theorem mem_updateAssoc {m : List (List Char × Sequence)} {k : List Char} {v : Sequence}
    {kv : List Char × Sequence} (h : kv ∈ updateAssoc m k v) : kv ∈ m ∨ kv = (k, v) := by
  induction m with
  | nil =>
    simp only [updateAssoc, List.mem_singleton] at h
    exact Or.inr h
  | cons kv0 rest ih =>
    simp only [updateAssoc] at h
    by_cases hk : kv0.1 = k
    · rw [if_pos hk] at h
      rcases List.mem_cons.mp h with h1 | h1
      · exact Or.inr h1
      · exact Or.inl (List.mem_cons_of_mem _ h1)
    · rw [if_neg hk] at h
      rcases List.mem_cons.mp h with h1 | h1
      · exact Or.inl (by rw [h1]; exact List.mem_cons_self _ _)
      · rcases ih h1 with h2 | h2
        · exact Or.inl (List.mem_cons_of_mem _ h2)
        · exact Or.inr h2

theorem lookupAssoc_mem {m : List (List Char × Sequence)} {k : List Char} {s : Sequence}
    (h : lookupAssoc m k = some s) : (k, s) ∈ m := by
  simp only [lookupAssoc] at h
  cases hf : m.find? (fun kv => kv.1 == k) with
  | none => rw [hf] at h; exact absurd h (by simp)
  | some kv =>
    rw [hf] at h
    have hs : kv.2 = s := by simpa using h
    have hk : kv.1 = k := by simpa using List.find?_some hf
    have hmem := List.mem_of_find?_eq_some hf
    have hkv : kv = (k, s) := by
      obtain ⟨k1, s1⟩ := kv
      simp only at hs hk
      rw [hs, hk]
    rw [← hkv]
    exact hmem

theorem seqsFiles_update {m : List (List Char × Sequence)} {k : List Char} {s s' : Sequence}
    (hlk : lookupAssoc m k = some s) :
    seqsFiles (updateAssoc m k s') + ((s._frames.map Prod.snd : List File) : Multiset File) =
      seqsFiles m + ((s'._frames.map Prod.snd : List File) : Multiset File) := by
  induction m with
  | nil => simp [lookupAssoc] at hlk
  | cons kv rest ih =>
    by_cases hk : kv.1 = k
    · have hfind : lookupAssoc (kv :: rest) k = some kv.2 := by
        simp only [lookupAssoc]
        rw [List.find?_cons_of_pos _ (by simp [hk])]
        rfl
      rw [hfind] at hlk
      have hs : kv.2 = s := by simpa using hlk
      simp only [updateAssoc, if_pos hk]
      rw [seqsFiles_cons, seqsFiles_cons, ← hs,
        show ((k, s') : List Char × Sequence).2 = s' from rfl]
      abel
    · have hfind : lookupAssoc (kv :: rest) k = lookupAssoc rest k := by
        simp only [lookupAssoc]
        rw [List.find?_cons_of_neg _ (by simp [hk])]
      rw [hfind] at hlk
      simp only [updateAssoc, if_neg hk]
      rw [seqsFiles_cons, seqsFiles_cons]
      have := ih hlk
      rw [add_assoc, add_assoc]
      exact congrArg _ this

theorem seqsFiles_new {m : List (List Char × Sequence)} {k : List Char} {v : Sequence}
    (hlk : lookupAssoc m k = none) :
    seqsFiles (updateAssoc m k v) =
      seqsFiles m + ((v._frames.map Prod.snd : List File) : Multiset File) := by
  induction m with
  | nil => simp [updateAssoc, seqsFiles]
  | cons kv rest ih =>
    by_cases hk : kv.1 = k
    · exfalso
      simp only [lookupAssoc] at hlk
      rw [List.find?_cons_of_pos _ (by simp [hk])] at hlk
      exact absurd hlk (by simp)
    · have hfind : lookupAssoc (kv :: rest) k = lookupAssoc rest k := by
        simp only [lookupAssoc]
        rw [List.find?_cons_of_neg _ (by simp [hk])]
      rw [hfind] at hlk
      simp only [updateAssoc, if_neg hk]
      rw [seqsFiles_cons, seqsFiles_cons, ih hlk, add_assoc]

theorem appendFile_ok_frames {s s' : Sequence} {f : File}
    (h : s.appendFile f = .ok s') :
    ∃ n, f.frame = some n ∧ s'._frames = s._frames ++ [(n, f)] ∧
      (s._frames ≠ [] → s'.seq_name = s.seq_name) := by
  simp only [Sequence.appendFile] at h
  cases hfr : f.frame with
  | none => rw [hfr] at h; exact absurd h (by simp)
  | some n =>
    simp only [hfr] at h
    refine ⟨n, rfl, ?_⟩
    by_cases hemp : s._frames.isEmpty = true
    · rw [if_pos hemp] at h
      simp only [Except.ok.injEq] at h
      refine ⟨by rw [← h], ?_⟩
      intro h0
      exact absurd (List.isEmpty_iff.mp hemp) h0
    · rw [if_neg hemp] at h
      by_cases hdup : n ∈ s.keys
      · rw [if_pos hdup] at h
        exact absurd h (by simp)
      · rw [if_neg hdup] at h
        by_cases hpad : s.padding < f.padding
        · rw [if_pos hpad] at h
          simp only [Except.ok.injEq] at h
          exact ⟨by rw [← h], fun _ => by rw [← h]⟩
        · rw [if_neg hpad] at h
          simp only [Except.ok.injEq] at h
          exact ⟨by rw [← h], fun _ => by rw [← h]⟩

theorem appendFile_cases {s : Sequence} {f : File} {n : Int} (hf : f.frame = some n) :
    (∃ s', s.appendFile f = .ok s') ∨ s.appendFile f = .error .duplicate := by
  simp only [Sequence.appendFile, hf]
  by_cases hemp : s._frames.isEmpty = true
  · rw [if_pos hemp]
    exact Or.inl ⟨_, rfl⟩
  · rw [if_neg hemp]
    by_cases hdup : n ∈ s.keys
    · rw [if_pos hdup]
      exact Or.inr rfl
    · rw [if_neg hdup]
      by_cases hpad : s.padding < f.padding
      · rw [if_pos hpad]
        exact Or.inl ⟨_, rfl⟩
      · rw [if_neg hpad]
        exact Or.inl ⟨_, rfl⟩

theorem fromFile_fileObj_spec {f : File} {n : Int} {ig : Bool} (hf : f.frame = some n) :
    ∃ s0, Sequence.fromFile (.fileObj f) ig = .ok s0 ∧ s0._frames = [(n, f)] ∧
      s0.seq_name = f.get_seq_key ig := by
  simp only [Sequence.fromFile, Sequence.append, Sequence.appendFile, hf]
  rw [if_pos (show (({ ignore_padding := ig } : Sequence))._frames.isEmpty = true from rfl)]
  exact ⟨_, rfl, rfl, rfl⟩

theorem coe_append_singleton (l : List File) (f : File) :
    ((l ++ [f] : List File) : Multiset File) = (l : Multiset File) + {f} := by
  rw [← Multiset.coe_singleton, Multiset.coe_add]

theorem sort_file_inv {P : Parser} {processed : List (List Char)}
    (hinv : MidInv processed P) (p : List Char) :
    ∃ P', P._sort_file p = .ok P' ∧ MidInv (processed ++ [p]) P' ∧
      P'.include_exts = P.include_exts ∧ P'.ignore_padding = P.ignore_padding := by
  obtain ⟨hseq, hsing, hseqs, hexc, hnon, hcol, hmul⟩ := hinv
  have hmapp : ((processed ++ [p]).map mkFile : Multiset File) =
      (processed.map mkFile : Multiset File) + {mkFile p} := by
    simp only [List.map_append, List.map_cons, List.map_nil]
    exact coe_append_singleton _ _
  have hpass : ¬(P.include_exts ≠ [] ∧ lowerStr (mkFile p).ext ∉ P.include_exts) →
      (P.include_exts = [] ∨ lowerStr (mkFile p).ext ∈ P.include_exts) := by
    intro h
    rcases not_and_or.mp h with h | h
    · exact Or.inl (not_not.mp h)
    · exact Or.inr (not_not.mp h)
  simp only [Parser._sort_file]
  by_cases h1 : (P.include_exts ≠ [] ∧ lowerStr (mkFile p).ext ∉ P.include_exts)
  · rw [if_pos h1]
    refine ⟨_, rfl, ⟨hseq, hsing, hseqs, ?_, hnon, hcol, ?_⟩, rfl, rfl⟩
    · intro f hf
      rcases List.mem_append.mp hf with h | h
      · exact hexc f h
      · simp only [List.mem_singleton] at h
        rw [h]
        exact h1
    · rw [hmapp, hmul, coe_append_singleton]
      abel
  · rw [if_neg h1]
    by_cases h2 : (mkFile p).frame = none
    · rw [if_pos h2]
      refine ⟨_, rfl, ⟨hseq, hsing, hseqs, hexc, ?_, hcol, ?_⟩, rfl, rfl⟩
      · intro f hf
        rcases List.mem_append.mp hf with h | h
        · exact hnon f h
        · simp only [List.mem_singleton] at h
          rw [h]
          exact ⟨hpass h1, h2⟩
      · rw [hmapp, hmul, coe_append_singleton]
        abel
    · rw [if_neg h2]
      obtain ⟨n, hn⟩ := Option.ne_none_iff_exists'.mp h2
      cases hlk : lookupAssoc P._sequences ((mkFile p).get_seq_key P.ignore_padding) with
      | some s =>
        have hsprops := hseqs _ (lookupAssoc_mem hlk)
        have hsne : s._frames ≠ [] := hsprops.1
        have hssn : s.seq_name = (mkFile p).get_seq_key P.ignore_padding := hsprops.2.1
        have hsmemb : ∀ f ∈ s.files,
            (P.include_exts = [] ∨ lowerStr f.ext ∈ P.include_exts) ∧
            f.frame ≠ none ∧
            f.get_seq_key P.ignore_padding = (mkFile p).get_seq_key P.ignore_padding :=
          hsprops.2.2
        rcases @appendFile_cases s (mkFile p) n hn with ⟨s', hs'⟩ | hdup
        · have happ : s.append (.fileObj (mkFile p)) = .ok s' := hs'
          simp only [happ]
          obtain ⟨n', hn', hfr, hsn⟩ := appendFile_ok_frames hs'
          have hsmem : ((s'._frames.map Prod.snd : List File) : Multiset File) =
              ((s._frames.map Prod.snd : List File) : Multiset File) + {mkFile p} := by
            rw [hfr]
            simp only [List.map_append, List.map_cons, List.map_nil]
            exact coe_append_singleton _ _
          have hupd : seqsFiles (updateAssoc P._sequences
              ((mkFile p).get_seq_key P.ignore_padding) s') =
              seqsFiles P._sequences + {mkFile p} := by
            have e := @seqsFiles_update P._sequences ((mkFile p).get_seq_key P.ignore_padding) s s' hlk
            rw [hsmem] at e
            have e2 : seqsFiles (updateAssoc P._sequences
                ((mkFile p).get_seq_key P.ignore_padding) s') +
                ((s._frames.map Prod.snd : List File) : Multiset File) =
                (seqsFiles P._sequences + {mkFile p}) +
                ((s._frames.map Prod.snd : List File) : Multiset File) :=
              e.trans (by abel)
            exact add_right_cancel e2
          have hfiles : s'.files = s.files ++ [mkFile p] := by
            simp [Sequence.files, hfr]
          refine ⟨_, rfl, ⟨hseq, hsing, ?_, hexc, hnon, hcol, ?_⟩, rfl, rfl⟩
          · intro kv hkv
            rcases mem_updateAssoc hkv with h | h
            · exact hseqs kv h
            · rw [h]
              refine ⟨by simp [hfr], ?_, ?_⟩
              · show s'.seq_name =
                  ((mkFile p).get_seq_key P.ignore_padding, s').1
                rw [hsn hsne, hssn]
              · intro f hf
                have hf' : f ∈ s.files ++ [mkFile p] := by
                  rw [← hfiles]
                  exact hf
                rcases List.mem_append.mp hf' with hm | hm
                · exact hsmemb f hm
                · simp only [List.mem_singleton] at hm
                  rw [hm]
                  exact ⟨hpass h1, by simp [hn], rfl⟩
          · rw [hmapp, hmul, hupd]
            abel
        · have happ2 : s.append (.fileObj (mkFile p)) = .error .duplicate := hdup
          simp only [happ2]
          refine ⟨_, rfl, ⟨hseq, hsing, hseqs, hexc, hnon, ?_, ?_⟩, rfl, rfl⟩
          · intro f hf
            rcases List.mem_append.mp hf with h | h
            · exact hcol f h
            · simp only [List.mem_singleton] at h
              rw [h]
              exact ⟨hpass h1, h2⟩
          · rw [hmapp, hmul, coe_append_singleton]
            abel
      | none =>
        obtain ⟨s0, hs0, hs0f, hs0n⟩ := @fromFile_fileObj_spec (mkFile p) n P.ignore_padding hn
        simp only [hs0]
        have hupd : seqsFiles (updateAssoc P._sequences
            ((mkFile p).get_seq_key P.ignore_padding) s0) =
            seqsFiles P._sequences + {mkFile p} := by
          rw [seqsFiles_new hlk, hs0f]
          simp
        refine ⟨_, rfl, ⟨hseq, hsing, ?_, hexc, hnon, hcol, ?_⟩, rfl, rfl⟩
        · intro kv hkv
          rcases mem_updateAssoc hkv with h | h
          · exact hseqs kv h
          · rw [h]
            refine ⟨by simp [hs0f], hs0n, ?_⟩
            intro f hf
            have hfiles : s0.files = [mkFile p] := by
              simp [Sequence.files, hs0f]
            rw [hfiles] at hf
            simp only [List.mem_singleton] at hf
            rw [hf]
            exact ⟨hpass h1, by simp [hn], rfl⟩
        · rw [hmapp, hmul, hupd]
          abel

theorem sortFiles_inv :
    ∀ (paths : List (List Char)) {P : Parser} {processed : List (List Char)},
      MidInv processed P →
      ∃ P', P.sortFiles paths = .ok P' ∧ MidInv (processed ++ paths) P' ∧
        P'.include_exts = P.include_exts ∧ P'.ignore_padding = P.ignore_padding := by
  intro paths
  induction paths with
  | nil =>
    intro P processed hinv
    exact ⟨P, rfl, by simpa using hinv, rfl, rfl⟩
  | cons p ps ih =>
    intro P processed hinv
    obtain ⟨P1, hP1, hinv1, hext1, hig1⟩ := sort_file_inv hinv p
    obtain ⟨P', hP', hinv', hext', hig'⟩ := ih hinv1
    refine ⟨P', ?_, ?_, hext'.trans hext1, hig'.trans hig1⟩
    · simp only [Parser.sortFiles, List.foldlM_cons, hP1]
      simpa [Bind.bind, Except.bind, Parser.sortFiles] using hP'
    · have he : (processed ++ [p]) ++ ps = processed ++ (p :: ps) := by simp
      rw [he] at hinv'
      exact hinv'

theorem cleanupLoop_single_mono :
    ∀ (l : List (List Char × Sequence)) (P : Parser) (s : Sequence),
      s ∈ P.single_frames → s ∈ (Parser.cleanupLoop l P).single_frames := by
  intro l
  induction l with
  | nil => intro P s hs; exact hs
  | cons kv rest ih =>
    intro P s hs
    simp only [Parser.cleanupLoop]
    by_cases hf : kv.2.frames = 1
    · rw [if_pos hf]
      exact ih _ s (List.mem_append_left _ hs)
    · rw [if_neg hf]
      exact ih _ s hs

theorem cleanupLoop_sequences_mono :
    ∀ (l : List (List Char × Sequence)) (P : Parser) (s : Sequence),
      s ∈ P.sequences → s ∈ (Parser.cleanupLoop l P).sequences := by
  intro l
  induction l with
  | nil => intro P s hs; exact hs
  | cons kv rest ih =>
    intro P s hs
    simp only [Parser.cleanupLoop]
    by_cases hf : kv.2.frames = 1
    · rw [if_pos hf]
      exact ih _ s hs
    · rw [if_neg hf]
      exact ih _ s (List.mem_append_left _ hs)

theorem cleanupLoop_spec :
    ∀ (l : List (List Char × Sequence)) (P : Parser),
      (∀ kv ∈ l, kv.2._frames ≠ []) →
      (∀ s ∈ P.single_frames, s.frames = 1) →
      (∀ s ∈ P.sequences, 2 ≤ s.frames) →
      (∀ s ∈ (Parser.cleanupLoop l P).single_frames, s.frames = 1) ∧
      (∀ s ∈ (Parser.cleanupLoop l P).sequences, 2 ≤ s.frames) ∧
      (Parser.cleanupLoop l P).excluded = P.excluded ∧
      (Parser.cleanupLoop l P).non_sequences = P.non_sequences ∧
      (Parser.cleanupLoop l P).collisions = P.collisions ∧
      (Parser.cleanupLoop l P).include_exts = P.include_exts ∧
      seqFilesL (Parser.cleanupLoop l P).single_frames +
          seqFilesL (Parser.cleanupLoop l P).sequences =
        seqFilesL P.single_frames + seqFilesL P.sequences + seqsFiles l ∧
      (∀ kv ∈ l, (kv.2.frames = 1 → kv.2 ∈ (Parser.cleanupLoop l P).single_frames) ∧
        (kv.2.frames ≠ 1 → kv.2 ∈ (Parser.cleanupLoop l P).sequences)) ∧
      (∀ s ∈ (Parser.cleanupLoop l P).single_frames,
        s ∈ P.single_frames ∨ s ∈ l.map Prod.snd) ∧
      (∀ s ∈ (Parser.cleanupLoop l P).sequences,
        s ∈ P.sequences ∨ s ∈ l.map Prod.snd) := by
  intro l
  induction l with
  | nil =>
    intro P _ h2 h3
    refine ⟨h2, h3, rfl, rfl, rfl, rfl, ?_, ?_, ?_, ?_⟩
    · rw [seqsFiles_nil, add_zero]
      rfl
    · intro kv hkv
      exact absurd hkv (List.not_mem_nil kv)
    · intro s hs
      exact Or.inl hs
    · intro s hs
      exact Or.inl hs
  | cons kv rest ih =>
    intro P h1 h2 h3
    simp only [Parser.cleanupLoop]
    by_cases hf : kv.2.frames = 1
    · rw [if_pos hf]
      have hsingle : ∀ s ∈ ({ P with single_frames := P.single_frames ++ [kv.2] } :
          Parser).single_frames, s.frames = 1 := by
        intro s hs
        rcases List.mem_append.mp hs with h | h
        · exact h2 s h
        · simp only [List.mem_singleton] at h
          rw [h]
          exact hf
      have hrec := ih { P with single_frames := P.single_frames ++ [kv.2] }
        (fun x hx => h1 x (List.mem_cons_of_mem _ hx)) hsingle h3
      obtain ⟨c1, c2, c3, c4, c5, c6, c7, c8, c9, c10⟩ := hrec
      refine ⟨c1, c2, c3, c4, c5, c6, ?_, ?_, ?_, ?_⟩
      · rw [c7, seqFilesL_append, seqsFiles_cons]
        have hsgl : seqFilesL [kv.2] =
            ((kv.2._frames.map Prod.snd : List File) : Multiset File) := by
          rw [seqFilesL_cons, seqFilesL_nil, add_zero]
        rw [hsgl]
        abel
      · intro kv' hkv'
        rcases List.mem_cons.mp hkv' with h | h
        · constructor
          · intro _
            rw [h]
            exact cleanupLoop_single_mono rest _ kv.2
              (List.mem_append_right _ (List.mem_singleton.mpr rfl))
          · intro hbad
            rw [h] at hbad
            exact absurd hf hbad
        · exact c8 kv' h
      · intro s hs
        rcases c9 s hs with h | h
        · rcases List.mem_append.mp h with h' | h'
          · exact Or.inl h'
          · simp only [List.mem_singleton] at h'
            rw [h']
            exact Or.inr (by rw [List.map_cons]; exact List.mem_cons_self _ _)
        · exact Or.inr (by rw [List.map_cons]; exact List.mem_cons_of_mem _ h)
      · intro s hs
        rcases c10 s hs with h | h
        · exact Or.inl h
        · exact Or.inr (by rw [List.map_cons]; exact List.mem_cons_of_mem _ h)
    · rw [if_neg hf]
      have hge : 2 ≤ kv.2.frames := by
        have hne0 : kv.2._frames ≠ [] := h1 kv (List.mem_cons_self _ _)
        have hpos : 0 < kv.2._frames.length := List.length_pos.mpr hne0
        simp only [Sequence.frames] at hf ⊢
        omega
      have hseqs : ∀ s ∈ ({ P with sequences := P.sequences ++ [kv.2] } :
          Parser).sequences, 2 ≤ s.frames := by
        intro s hs
        rcases List.mem_append.mp hs with h | h
        · exact h3 s h
        · simp only [List.mem_singleton] at h
          rw [h]
          exact hge
      have hrec := ih { P with sequences := P.sequences ++ [kv.2] }
        (fun x hx => h1 x (List.mem_cons_of_mem _ hx)) h2 hseqs
      obtain ⟨c1, c2, c3, c4, c5, c6, c7, c8, c9, c10⟩ := hrec
      refine ⟨c1, c2, c3, c4, c5, c6, ?_, ?_, ?_, ?_⟩
      · rw [c7, seqFilesL_append, seqsFiles_cons]
        have hsgl : seqFilesL [kv.2] =
            ((kv.2._frames.map Prod.snd : List File) : Multiset File) := by
          rw [seqFilesL_cons, seqFilesL_nil, add_zero]
        rw [hsgl]
        abel
      · intro kv' hkv'
        rcases List.mem_cons.mp hkv' with h | h
        · constructor
          · intro hbad
            rw [h] at hbad
            exact absurd hbad hf
          · intro _
            rw [h]
            exact cleanupLoop_sequences_mono rest _ kv.2
              (List.mem_append_right _ (List.mem_singleton.mpr rfl))
        · exact c8 kv' h
      · intro s hs
        rcases c9 s hs with h | h
        · exact Or.inl h
        · exact Or.inr (by rw [List.map_cons]; exact List.mem_cons_of_mem _ h)
      · intro s hs
        rcases c10 s hs with h | h
        · rcases List.mem_append.mp h with h' | h'
          · exact Or.inl h'
          · simp only [List.mem_singleton] at h'
            rw [h']
            exact Or.inr (by rw [List.map_cons]; exact List.mem_cons_self _ _)
        · exact Or.inr (by rw [List.map_cons]; exact List.mem_cons_of_mem _ h)

/-- C2: a finished classification pass over any list of file paths
distributes the files built from the inputs over exactly the five
output buckets (a sequence counts as containing its member files):
the combined buckets form a multiset partition of the input files;
every excluded file failed the configured allow-list test, every
non-sequence file passed it but has no extractable frame number, every
collision file passed it and has a frame number; the working map at
the end of the pass groups by sequence key (each entry is stored under
its own `seq_name`, and every member file of the entry passed the
allow-list, has a frame number, and has exactly that sequence key);
cleanup routes every key's group with exactly one frame into
`single_frames` and every other group into `sequences`; conversely
every output sequence comes from the working map, with exactly one
frame in `single_frames` and at least two in `sequences`, and all its
member files passed the allow-list, have frame numbers and share the
sequence key stored as the sequence's `seq_name`. -/
theorem C2_classification_pass (exts : List (List Char)) (ig : Bool)
    (paths : List (List Char)) :
    ∃ P1 P', (initParser exts ig).sortFiles paths = .ok P1 ∧
      P1._cleanup = P' ∧
      (initParser exts ig).parseList paths = .ok P' ∧
      P'.include_exts = exts.map lowerStr ∧
      ((paths.map mkFile : Multiset File) =
        (P'.excluded : Multiset File) + (P'.non_sequences : Multiset File) +
        (P'.collisions : Multiset File) +
        (seqFilesL P'.single_frames + seqFilesL P'.sequences)) ∧
      (∀ f ∈ P'.excluded, P'.include_exts ≠ [] ∧ lowerStr f.ext ∉ P'.include_exts) ∧
      (∀ f ∈ P'.non_sequences,
        (P'.include_exts = [] ∨ lowerStr f.ext ∈ P'.include_exts) ∧ f.frame = none) ∧
      (∀ f ∈ P'.collisions,
        (P'.include_exts = [] ∨ lowerStr f.ext ∈ P'.include_exts) ∧ f.frame ≠ none) ∧
      (∀ kv ∈ P1._sequences, kv.2.seq_name = kv.1 ∧
        ∀ f ∈ kv.2.files,
          (P'.include_exts = [] ∨ lowerStr f.ext ∈ P'.include_exts) ∧
          f.frame ≠ none ∧ f.get_seq_key ig = kv.1) ∧
      (∀ kv ∈ P1._sequences,
        (kv.2.frames = 1 → kv.2 ∈ P'.single_frames) ∧
        (kv.2.frames ≠ 1 → kv.2 ∈ P'.sequences)) ∧
      (∀ s ∈ P'.single_frames, s ∈ P1._sequences.map Prod.snd ∧ s.frames = 1) ∧
      (∀ s ∈ P'.sequences, s ∈ P1._sequences.map Prod.snd ∧ 2 ≤ s.frames) ∧
      (∀ s ∈ P'.single_frames ++ P'.sequences, ∀ f ∈ s.files,
        (P'.include_exts = [] ∨ lowerStr f.ext ∈ P'.include_exts) ∧
        f.frame ≠ none ∧ f.get_seq_key ig = s.seq_name) := by
  have hinv0 : MidInv [] (initParser exts ig) := by
    refine ⟨rfl, rfl, ?_, ?_, ?_, ?_, ?_⟩
    · intro kv hkv
      exact absurd hkv (List.not_mem_nil kv)
    · intro f hf
      exact absurd hf (List.not_mem_nil f)
    · intro f hf
      exact absurd hf (List.not_mem_nil f)
    · intro f hf
      exact absurd hf (List.not_mem_nil f)
    · rfl
  obtain ⟨P1, hP1, hinv1, hext1, hig1⟩ := sortFiles_inv paths hinv0
  obtain ⟨hseq1, hsing1, hseqs1, hexc1, hnon1, hcol1, hmul1⟩ := hinv1
  simp only [List.nil_append] at hmul1
  have hig : P1.ignore_padding = ig := hig1
  have hbase_single : ∀ s ∈ ({ P1 with _sequences := [] } : Parser).single_frames,
      s.frames = 1 := by
    intro s hs
    rw [show ({ P1 with _sequences := [] } : Parser).single_frames = P1.single_frames
      from rfl, hsing1] at hs
    exact absurd hs (List.not_mem_nil s)
  have hbase_seq : ∀ s ∈ ({ P1 with _sequences := [] } : Parser).sequences,
      2 ≤ s.frames := by
    intro s hs
    rw [show ({ P1 with _sequences := [] } : Parser).sequences = P1.sequences
      from rfl, hseq1] at hs
    exact absurd hs (List.not_mem_nil s)
  have hclean := cleanupLoop_spec P1._sequences.reverse { P1 with _sequences := [] }
    (fun kv hkv => (hseqs1 kv (List.mem_reverse.mp hkv)).1) hbase_single hbase_seq
  obtain ⟨c1, c2, c3, c4, c5, c6, c7, c8, c9, c10⟩ := hclean
  obtain ⟨P', hP'⟩ : ∃ P'', Parser.cleanupLoop P1._sequences.reverse
      { P1 with _sequences := [] } = P'' := ⟨_, rfl⟩
  rw [hP'] at c1 c2 c3 c4 c5 c6 c7 c8 c9 c10
  have hPinc : P'.include_exts = P1.include_exts := c6
  have hprov_single : ∀ s ∈ P'.single_frames, s ∈ P1._sequences.map Prod.snd := by
    intro s hs
    rcases c9 s hs with h | h
    · rw [show ({ P1 with _sequences := [] } : Parser).single_frames = P1.single_frames
        from rfl, hsing1] at h
      exact absurd h (List.not_mem_nil s)
    · obtain ⟨kv, hkvmem, hkv2⟩ := List.mem_map.mp h
      exact List.mem_map.mpr ⟨kv, List.mem_reverse.mp hkvmem, hkv2⟩
  have hprov_seq : ∀ s ∈ P'.sequences, s ∈ P1._sequences.map Prod.snd := by
    intro s hs
    rcases c10 s hs with h | h
    · rw [show ({ P1 with _sequences := [] } : Parser).sequences = P1.sequences
        from rfl, hseq1] at h
      exact absurd h (List.not_mem_nil s)
    · obtain ⟨kv, hkvmem, hkv2⟩ := List.mem_map.mp h
      exact List.mem_map.mpr ⟨kv, List.mem_reverse.mp hkvmem, hkv2⟩
  have hmembers : ∀ s, s ∈ P1._sequences.map Prod.snd →
      ∀ f ∈ s.files, (P'.include_exts = [] ∨ lowerStr f.ext ∈ P'.include_exts) ∧
        f.frame ≠ none ∧ f.get_seq_key ig = s.seq_name := by
    intro s hsmem f hf
    obtain ⟨kv, hkvmem, hkv2⟩ := List.mem_map.mp hsmem
    obtain ⟨_, hsn, hmemb⟩ := hseqs1 kv hkvmem
    have hf' : f ∈ kv.2.files := by
      rw [hkv2]
      exact hf
    obtain ⟨ha, hb, hc⟩ := hmemb f hf'
    refine ⟨?_, hb, ?_⟩
    · rw [hPinc]
      exact ha
    · rw [← hkv2, hsn, ← hig]
      exact hc
  refine ⟨P1, P', hP1, hP', ?_, ?_, ?_, ?_, ?_, ?_, ?_, ?_, ?_, ?_, ?_⟩
  · simp only [Parser.parseList, hP1, Bind.bind, Except.bind, Pure.pure, Except.pure]
    rw [show P1._cleanup = P' from hP']
  · rw [c6]
    exact hext1
  · rw [c3, c4, c5, c7]
    rw [show ({ P1 with _sequences := [] } : Parser).single_frames = P1.single_frames
      from rfl, show ({ P1 with _sequences := [] } : Parser).sequences = P1.sequences
      from rfl, hsing1, hseq1, seqFilesL_nil, seqsFiles_reverse]
    rw [show ({ P1 with _sequences := [] } : Parser).excluded = P1.excluded from rfl,
      show ({ P1 with _sequences := [] } : Parser).non_sequences = P1.non_sequences
        from rfl,
      show ({ P1 with _sequences := [] } : Parser).collisions = P1.collisions from rfl]
    rw [hmul1]
    abel
  · intro f hf
    rw [c3] at hf
    rw [c6]
    exact hexc1 f hf
  · intro f hf
    rw [c4] at hf
    rw [c6]
    exact hnon1 f hf
  · intro f hf
    rw [c5] at hf
    rw [c6]
    exact hcol1 f hf
  · intro kv hkv
    obtain ⟨_, hsn, hmemb⟩ := hseqs1 kv hkv
    refine ⟨hsn, ?_⟩
    intro f hf
    obtain ⟨ha, hb, hc⟩ := hmemb f hf
    refine ⟨?_, hb, ?_⟩
    · rw [hPinc]
      exact ha
    · rw [← hig]
      exact hc
  · intro kv hkv
    exact c8 kv (List.mem_reverse.mpr hkv)
  · intro s hs
    exact ⟨hprov_single s hs, c1 s hs⟩
  · intro s hs
    exact ⟨hprov_seq s hs, c2 s hs⟩
  · intro s hs f hf
    have hsmem : s ∈ P1._sequences.map Prod.snd := by
      rcases List.mem_append.mp hs with h | h
      · exact hprov_single s h
      · exact hprov_seq s h
    exact hmembers s hsmem f hf

/-- Witness for C2 on a concrete three-file listing. -/
theorem C2_classification_pass_witness :
    ∃ P', (initParser [] true).parseList
        ["a.0001.exr".data, "a.0002.exr".data, "b.txt".data] = .ok P' ∧
      P'.include_exts = ([] : List (List Char)).map lowerStr := by
  obtain ⟨P1, P', _, _, h3, h4, _⟩ := C2_classification_pass [] true
    ["a.0001.exr".data, "a.0002.exr".data, "b.txt".data]
  exact ⟨P', h3, h4⟩

end UltraSeq
